import Mathlib

/-!
Verification of the VNT translation-sync tool (`sync_vnt.py`).

This file shallowly embeds the pure core of the script:
the TSV record codec (`dump_tsv_file` / `load_tsv_file`), the remote
snapshot adapter (`generate_tsv_from_vnt`), the reconciler
(`compare_lines`) and the upload chunker (`submit_updates` / `chunks`).

Conventions of the embedding:
* Python strings are `String` (a list of characters); `str.strip("\n")`
  is `stripNL`.
* A file's content is a `String`; writing a line appends the line text
  plus a newline character.
* Raised exceptions (`ValueError`, `IndexError`, `UnboundLocalError`)
  are modelled by `Except SyncError`; the numeric/text payload of each
  Python error message is carried in the corresponding `SyncError`
  constructor where the claims depend on it.  The adapter's `line_number`
  local — assigned only for translated lines, yet referenced by the
  internal-newline message and by the stripping warning — is threaded
  explicitly as an `Option Nat`, so the source's `UnboundLocalError`
  (raised when those f-strings read it before any assignment) is
  modelled by `.unboundLocal`.
* Interactive confirmation prompts are not part of the pure core: the
  reconciler returns the list of overwrite-conflict records it would
  present at the gate, together with merged lines and pending uploads.
-/

/-- A row of the local TSV store: `(char, orig, trans)` in the source. -/
structure TSVTriple where
  char : String
  orig : String
  trans : String
deriving DecidableEq, Repr

/-- One entry of a remote line's translation history
(`x["translation"]`, `x["created_by"]["username"]`). -/
structure Translation where
  translation : String
  created_by_username : String
deriving DecidableEq, Repr

/-- A remote line object as used by the script: `line["id"]`,
`line["line_number"]`, `line["character_name"]`, `line["original"]`,
`line["translations"]` (already filtered to the target language; the
first entry, if any, is the current translation). -/
structure VntLine where
  id : Nat
  line_number : Nat
  character_name : String
  original : String
  translations : List Translation
deriving DecidableEq, Repr

/-- An overwrite-conflict record built in `compare_lines` (the dict with
keys `line`, `line_no`, `char`, `orig`, `local`, `vnt`, `vnt-author`). -/
structure OverwriteInfo where
  line : Nat
  line_no : Nat
  char : String
  orig : String
  localTrans : String
  vnt : String
  vntAuthor : String
deriving DecidableEq, Repr

/-- Errors raised by the embedded functions: the `ValueError`s of the
source, the `IndexError` from `line["translations"][0]`, and the
`UnboundLocalError` from reading the adapter's `line_number` local
before its first assignment. -/
inductive SyncError where
  | reservedTranslation (i : Nat)
  | internalNewline (i : Nat)
  | unboundLocal
  | fieldCount
  | lengthMismatch (ntsv nvnt : Nat)
  | alignMismatch (line : Nat) (char0 orig0 char1 orig1 : String)
  | indexOutOfRange
deriving DecidableEq, Repr

/-- Python `cs.strip("\n")` on the underlying character list: remove
leading and trailing newline characters. -/
def stripNLData (cs : List Char) : List Char :=
  ((cs.dropWhile (fun c => c = '\n')).reverse.dropWhile (fun c => c = '\n')).reverse

/-- Python `s.strip("\n")`. -/
def stripNL (s : String) : String :=
  String.mk (stripNLData s.data)

/-- Python `"\n" in s`. -/
def hasNL (s : String) : Bool :=
  s.data.contains '\n'

/-- The current translation of a remote line: `line["translations"][0]["translation"]`
if the filtered history is non-empty, else `""`. -/
def transOf (ln : VntLine) : String :=
  match ln.translations with
  | [] => ""
  | t :: _ => t.translation

/-- Loop body of `generate_tsv_from_vnt`.  `i` is the 1-based index of
the error messages; `line_number` is the Python function-local of the
same name, assigned only inside the `if line["translations"]:` branch
(so it is `none` until the first translated line and stale afterwards).
Both the internal-newline message and the stripping warning read it:
when it is still unassigned, that read raises `UnboundLocalError`
(`.unboundLocal`) — in the warning's case instead of warning and
continuing. -/
def generate_go (i : Nat) (line_number : Option Nat) :
    List VntLine → Except SyncError (List TSVTriple)
  | [] => .ok []
  | ln :: rest =>
    let char := ln.character_name
    let orig := ln.original
    let trans := transOf ln
    let line_number := if ln.translations ≠ [] then some (ln.line_number + 1) else line_number
    if ln.translations ≠ [] ∧ trans = "#" then
      .error (.reservedTranslation i)
    else if hasNL (stripNL orig) || hasNL (stripNL trans) then
      match line_number with
      | none => .error .unboundLocal
      | some _ => .error (.internalNewline i)
    else if (stripNL orig ≠ orig ∨ stripNL trans ≠ trans) ∧ line_number = none then
      .error .unboundLocal
    else do
      let ts ← generate_go (i + 1) line_number rest
      .ok (⟨char, orig, trans⟩ :: ts)

/-- `generate_tsv_from_vnt(vnt)`: normalize remote line objects into TSV
triples, validating the reserved sentinel and internal newlines.  A line
with merely leading/trailing newlines passes through unmodified with a
printed warning — unless no line so far carried a translation, in which
case the warning's reference to the unassigned `line_number` raises. -/
def generate_tsv_from_vnt (vnt : List VntLine) : Except SyncError (List TSVTriple) :=
  generate_go 1 none vnt

/-- One serialized TSV line, before the trailing newline:
`"\t".join((char, orig.strip("\n"), trans.strip("\n")))` with the empty
translation first replaced by the sentinel `"#"`. -/
def dumpLine (t : TSVTriple) : String :=
  let trans := if t.trans = "" then "#" else t.trans
  t.char ++ "\t" ++ stripNL t.orig ++ "\t" ++ stripNL trans

/-- `dump_tsv_file(tsv)`: the full file content written by the source
(each serialized line followed by a newline). -/
def dump_tsv_file : List TSVTriple → String
  | [] => ""
  | t :: ts => dumpLine t ++ "\n" ++ dump_tsv_file ts

/-- Split a character list at every occurrence of `c`
(Python `s.split(c)` for a one-character separator). -/
def splitOnChar (c : Char) : List Char → List (List Char)
  | [] => [[]]
  | x :: xs =>
    if x = c then [] :: splitOnChar c xs
    else
      match splitOnChar c xs with
      | [] => [[x]]
      | r :: rs => (x :: r) :: rs

/-- Drop a final empty piece, turning `splitOnChar '\n'` of a file's
content into Python's iteration over the file's lines (each line already
`rstrip("\n")`-ed). -/
def dropFinalEmpty : List (List Char) → List (List Char)
  | [] => []
  | [x] => if x = [] then [] else [x]
  | x :: xs => x :: dropFinalEmpty xs

/-- The lines of a file's content, as Python's
`[line.rstrip("\n") for line in f]`. -/
def splitLinesData (cs : List Char) : List (List Char) :=
  dropFinalEmpty (splitOnChar '\n' cs)

/-- Parse one TSV line: `char, orig, trans = line.split("\t")` (a
`ValueError` unless there are exactly three fields), then map the
sentinel `"#"` back to the empty translation. -/
def parseLine (cs : List Char) : Except SyncError TSVTriple :=
  match splitOnChar '\t' cs with
  | [c, o, t] =>
      .ok ⟨String.mk c, String.mk o, if String.mk t = "#" then "" else String.mk t⟩
  | _ => .error .fieldCount

/-- Parse every line of the file in order. -/
def loadLines : List (List Char) → Except SyncError (List TSVTriple)
  | [] => .ok []
  | l :: ls => do
    let t ← parseLine l
    let ts ← loadLines ls
    .ok (t :: ts)

/-- `load_tsv_file(filename)` on the given file content. -/
def load_tsv_file (content : String) : Except SyncError (List TSVTriple) :=
  loadLines (splitLinesData content.data)

/-- The remote translation history of a line, as the generator
`(x["translation"] for x in line["translations"])`. -/
def histOf (ln : VntLine) : List String :=
  ln.translations.map Translation.translation

/-- Loop body of `compare_lines`, with `i` the 0-based position.
Returns `(tsv_lines_new, updates, overwrite_info)`.  Like Python's
`zip`, the iteration stops at the shortest of the three sequences. -/
def compare_lines_go (i : Nat) :
    List TSVTriple → List TSVTriple → List VntLine →
    Except SyncError (List TSVTriple × List (Nat × String) × List OverwriteInfo)
  | ⟨c0, o0, t0⟩ :: tsv, ⟨c1, o1, t1⟩ :: vnt, ln :: lns =>
    if c0 ≠ c1 ∨ o0 ≠ o1 then
      .error (.alignMismatch (i + 1) c0 o0 c1 o1)
    else if t0 = t1 then do
      let (m, u, o) ← compare_lines_go (i + 1) tsv vnt lns
      .ok (⟨c0, o0, t0⟩ :: m, u, o)
    else if t0 = "" ∨ t0 ∈ histOf ln then do
      let (m, u, o) ← compare_lines_go (i + 1) tsv vnt lns
      .ok (⟨c0, o0, t1⟩ :: m, u, o)
    else if t1 = "" then do
      let (m, u, o) ← compare_lines_go (i + 1) tsv vnt lns
      .ok (⟨c0, o0, t0⟩ :: m, (ln.id, t0) :: u, o)
    else
      match ln.translations with
      | [] => .error .indexOutOfRange
      | tr :: _ => do
        let (m, u, o) ← compare_lines_go (i + 1) tsv vnt lns
        .ok (⟨c0, o0, t0⟩ :: m, (ln.id, t0) :: u,
             ⟨i + 1, ln.line_number + 1, c0, o0, t0, t1, tr.created_by_username⟩ :: o)
  | _, _, _ => .ok ([], [], [])

/-- `compare_lines(tsv_lines, vnt_triples, vnt_lines)`.  The result is
`(tsv_lines_new, updates, overwrite_info)`, where `overwrite_info` is
the list of conflict records the source presents at its interactive
gate before returning `(tsv_lines_new, updates)`. -/
def compare_lines (tsv_lines vnt_triples : List TSVTriple) (vnt_lines : List VntLine) :
    Except SyncError (List TSVTriple × List (Nat × String) × List OverwriteInfo) :=
  if tsv_lines.length ≠ vnt_lines.length then
    .error (.lengthMismatch tsv_lines.length vnt_lines.length)
  else
    compare_lines_go 0 tsv_lines vnt_triples vnt_lines

/-- `UPLOAD_CHUNK_SIZE` of the source. -/
def UPLOAD_CHUNK_SIZE : Nat := 25

/-- The inner `chunks` generator of `submit_updates`:
`while l: yield l[:size]; l = l[size:]`.  (For `size = 0` the source
would loop forever; it is only ever invoked with size 25.) -/
def chunks : List α → Nat → List (List α)
  | [], _ => []
  | x :: xs, size =>
    if size = 0 then []
    else (x :: xs).take size :: chunks ((x :: xs).drop size) size
termination_by l _ => l.length
decreasing_by
  rename_i h0
  simp only [List.length_drop]
  simp only [List.length_cons]
  omega

/-- `submit_updates(updates)`: the sequence of batch payloads it
transmits (or reports in dry-run mode), in order. -/
def submit_updates (updates : List (Nat × String)) : List (List (Nat × String)) :=
  chunks updates UPLOAD_CHUNK_SIZE

/-! ## Positional characterization of the reconciler

`compare_lines` walks the three sequences in lockstep; on success its
three outputs decompose position by position.  The following functions
restate the loop body's effect at a single position; the lemma
`compare_lines_go_ok` proves that a successful run equals their
pointwise combination. -/

/-- The three aligned sequences zipped into one list of positions. -/
def zip3 (tsv vnt : List TSVTriple) (lns : List VntLine) :
    List (TSVTriple × TSVTriple × VntLine) :=
  tsv.zip (vnt.zip lns)

/-- The merged triple produced for one position. -/
def mergedOf (p : TSVTriple × TSVTriple × VntLine) : TSVTriple :=
  if p.1.trans = p.2.1.trans then p.1
  else if p.1.trans = "" ∨ p.1.trans ∈ histOf p.2.2 then ⟨p.1.char, p.1.orig, p.2.1.trans⟩
  else p.1

/-- The uploads scheduled for one position (zero or one). -/
def uploadsOf (p : TSVTriple × TSVTriple × VntLine) : List (Nat × String) :=
  if p.1.trans = p.2.1.trans then []
  else if p.1.trans = "" ∨ p.1.trans ∈ histOf p.2.2 then []
  else [(p.2.2.id, p.1.trans)]

/-- All uploads scheduled by a run, position by position in order. -/
def uploadsAll : List (TSVTriple × TSVTriple × VntLine) → List (Nat × String)
  | [] => []
  | p :: ps => uploadsOf p ++ uploadsAll ps

/-- The overwrite-conflict records produced for one position (zero or
one), `i` being the 0-based position. -/
def conflictsOf (i : Nat) (p : TSVTriple × TSVTriple × VntLine) : List OverwriteInfo :=
  if p.1.trans = p.2.1.trans then []
  else if p.1.trans = "" ∨ p.1.trans ∈ histOf p.2.2 then []
  else if p.2.1.trans = "" then []
  else
    match p.2.2.translations with
    | [] => []
    | tr :: _ =>
      [⟨i + 1, p.2.2.line_number + 1, p.1.char, p.1.orig, p.1.trans, p.2.1.trans,
        tr.created_by_username⟩]

/-- All overwrite-conflict records of a run, starting at position `i`. -/
def conflictsFrom (i : Nat) : List (TSVTriple × TSVTriple × VntLine) → List OverwriteInfo
  | [] => []
  | p :: ps => conflictsOf i p ++ conflictsFrom (i + 1) ps


lemma compare_lines_go_ok :
    ∀ (l0 : List TSVTriple) (i : Nat) (l1 : List TSVTriple) (l2 : List VntLine)
      (m : List TSVTriple) (u : List (Nat × String)) (o : List OverwriteInfo),
      compare_lines_go i l0 l1 l2 = .ok (m, u, o) →
      m = (zip3 l0 l1 l2).map mergedOf ∧ u = uploadsAll (zip3 l0 l1 l2) ∧
        o = conflictsFrom i (zip3 l0 l1 l2) := by
  intro l0
  induction l0 with
  | nil =>
    intro i l1 l2 m u o h
    simp only [compare_lines_go] at h
    obtain ⟨rfl, rfl, rfl⟩ := h
    simp [zip3, uploadsAll, conflictsFrom]
  | cons t0 rest ih =>
    intro i l1 l2 m u o h
    cases l1 with
    | nil =>
      simp only [compare_lines_go] at h
      obtain ⟨rfl, rfl, rfl⟩ := h
      simp [zip3, uploadsAll, conflictsFrom]
    | cons t1 rest1 =>
      cases l2 with
      | nil =>
        simp only [compare_lines_go] at h
        obtain ⟨rfl, rfl, rfl⟩ := h
        simp [zip3, uploadsAll, conflictsFrom]
      | cons ln lns =>
        obtain ⟨c0, o0, tr0⟩ := t0
        obtain ⟨c1, o1, tr1⟩ := t1
        simp only [compare_lines_go] at h
        by_cases hal : c0 ≠ c1 ∨ o0 ≠ o1
        · simp [hal] at h
        · rw [if_neg hal] at h
          push_neg at hal
          obtain ⟨hc, ho⟩ := hal
          subst hc; subst ho
          by_cases h01 : tr0 = tr1
          · rw [if_pos h01] at h
            cases hrec : compare_lines_go (i + 1) rest rest1 lns with
            | error e =>
              rw [hrec] at h
              simp only [bind, Except.bind] at h
              exact absurd h (by simp)
            | ok trip =>
              obtain ⟨m', u', o'⟩ := trip
              rw [hrec] at h
              simp only [bind, Except.bind, Except.ok.injEq, Prod.mk.injEq] at h
              obtain ⟨rfl, rfl, rfl⟩ := h
              obtain ⟨hm, hu, ho⟩ := ih (i + 1) rest1 lns m' u' o' hrec
              refine ⟨?_, ?_, ?_⟩ <;>
                simp [zip3, List.zip, uploadsAll, conflictsFrom, mergedOf, uploadsOf, conflictsOf,
                  h01, hm, hu, ho]
          · rw [if_neg h01] at h
            by_cases hh : tr0 = "" ∨ tr0 ∈ histOf ln
            · rw [if_pos hh] at h
              cases hrec : compare_lines_go (i + 1) rest rest1 lns with
              | error e =>
                rw [hrec] at h
                simp only [bind, Except.bind] at h
                exact absurd h (by simp)
              | ok trip =>
                obtain ⟨m', u', o'⟩ := trip
                rw [hrec] at h
                simp only [bind, Except.bind, Except.ok.injEq, Prod.mk.injEq] at h
                obtain ⟨rfl, rfl, rfl⟩ := h
                obtain ⟨hm, hu, ho⟩ := ih (i + 1) rest1 lns m' u' o' hrec
                refine ⟨?_, ?_, ?_⟩ <;>
                  simp [zip3, List.zip, uploadsAll, conflictsFrom, mergedOf, uploadsOf, conflictsOf,
                    h01, hh, hm, hu, ho]
            · rw [if_neg hh] at h
              push_neg at hh
              obtain ⟨hh1, hh2⟩ := hh
              by_cases h1e : tr1 = ""
              · rw [if_pos h1e] at h
                cases hrec : compare_lines_go (i + 1) rest rest1 lns with
                | error e =>
                  rw [hrec] at h
                  simp only [bind, Except.bind] at h
                  exact absurd h (by simp)
                | ok trip =>
                  obtain ⟨m', u', o'⟩ := trip
                  rw [hrec] at h
                  simp only [bind, Except.bind, Except.ok.injEq, Prod.mk.injEq] at h
                  obtain ⟨rfl, rfl, rfl⟩ := h
                  obtain ⟨hm, hu, ho⟩ := ih (i + 1) rest1 lns m' u' o' hrec
                  refine ⟨?_, ?_, ?_⟩ <;>
                    simp [zip3, List.zip, uploadsAll, conflictsFrom, mergedOf, uploadsOf, conflictsOf,
                      hh1, hh2, h01, h1e, hm, hu, ho]
              · rw [if_neg h1e] at h
                cases htr : ln.translations with
                | nil =>
                  rw [htr] at h
                  exact absurd h (by simp)
                | cons tr trs =>
                  rw [htr] at h
                  cases hrec : compare_lines_go (i + 1) rest rest1 lns with
                  | error e =>
                    rw [hrec] at h
                    simp only [bind, Except.bind] at h
                    exact absurd h (by simp)
                  | ok trip =>
                    obtain ⟨m', u', o'⟩ := trip
                    rw [hrec] at h
                    simp only [bind, Except.bind, Except.ok.injEq, Prod.mk.injEq] at h
                    obtain ⟨rfl, rfl, rfl⟩ := h
                    obtain ⟨hm, hu, ho⟩ := ih (i + 1) rest1 lns m' u' o' hrec
                    refine ⟨?_, ?_, ?_⟩ <;>
                      simp [zip3, List.zip, uploadsAll, conflictsFrom, mergedOf, uploadsOf,
                        conflictsOf, hh1, hh2, h01, h1e, htr, hm, hu, ho]

lemma zip3_getElem_some {tsv vnt : List TSVTriple} {lns : List VntLine} {i : Nat}
    {t0 t1 : TSVTriple} {ln : VntLine}
    (h0 : tsv[i]? = some t0) (h1 : vnt[i]? = some t1) (h2 : lns[i]? = some ln) :
    (zip3 tsv vnt lns)[i]? = some (t0, t1, ln) := by
  rw [zip3, List.getElem?_zip_eq_some]
  exact ⟨h0, by rw [List.getElem?_zip_eq_some]; exact ⟨h1, h2⟩⟩

lemma zip3_getElem_inv {tsv vnt : List TSVTriple} {lns : List VntLine} {i : Nat}
    {p : TSVTriple × TSVTriple × VntLine} (h : (zip3 tsv vnt lns)[i]? = some p) :
    tsv[i]? = some p.1 ∧ vnt[i]? = some p.2.1 ∧ lns[i]? = some p.2.2 := by
  rw [zip3, List.getElem?_zip_eq_some] at h
  obtain ⟨ha, hb⟩ := h
  rw [List.getElem?_zip_eq_some] at hb
  exact ⟨ha, hb.1, hb.2⟩

lemma mem_uploadsAll {x : Nat × String} :
    ∀ {ps : List (TSVTriple × TSVTriple × VntLine)},
      x ∈ uploadsAll ps → ∃ p ∈ ps, x ∈ uploadsOf p := by
  intro ps
  induction ps with
  | nil => intro h; simp [uploadsAll] at h
  | cons p ps ih =>
    intro h
    rw [uploadsAll, List.mem_append] at h
    rcases h with h | h
    · exact ⟨p, List.mem_cons_self p ps, h⟩
    · obtain ⟨q, hq, hx⟩ := ih h
      exact ⟨q, List.mem_cons_of_mem p hq, hx⟩

lemma uploadsAll_eq_nil {ps : List (TSVTriple × TSVTriple × VntLine)}
    (h : ∀ p ∈ ps, uploadsOf p = []) : uploadsAll ps = [] := by
  induction ps with
  | nil => rfl
  | cons p ps ih =>
    rw [uploadsAll, h p (List.mem_cons_self p ps), List.nil_append]
    exact ih fun q hq => h q (List.mem_cons_of_mem p hq)

/-- When every aligned position has matching `character`/`original`, the
loop can only fail with the `IndexError` from `translations[0]`. -/
lemma compare_lines_go_err_aligned :
    ∀ (l0 : List TSVTriple) (i : Nat) (l1 : List TSVTriple) (l2 : List VntLine),
      (∀ p ∈ zip3 l0 l1 l2, p.1.char = p.2.1.char ∧ p.1.orig = p.2.1.orig) →
      ∀ e, compare_lines_go i l0 l1 l2 = .error e → e = .indexOutOfRange := by
  intro l0
  induction l0 with
  | nil => intro i l1 l2 _ e h; simp [compare_lines_go] at h
  | cons t0 rest ih =>
    intro i l1 l2 hal e h
    cases l1 with
    | nil => simp [compare_lines_go] at h
    | cons t1 rest1 =>
      cases l2 with
      | nil => simp [compare_lines_go] at h
      | cons ln lns =>
        obtain ⟨c0, o0, tr0⟩ := t0
        obtain ⟨c1, o1, tr1⟩ := t1
        have hhead := hal (⟨c0, o0, tr0⟩, ⟨c1, o1, tr1⟩, ln)
          (by simp [zip3, List.zip])
        obtain ⟨hc, ho⟩ := hhead
        simp only at hc ho
        have htail : ∀ p ∈ zip3 rest rest1 lns, p.1.char = p.2.1.char ∧ p.1.orig = p.2.1.orig := by
          intro p hp
          exact hal p (by simp [zip3, List.zip] at hp ⊢; right; exact hp)
        simp only [compare_lines_go] at h
        rw [if_neg (by push_neg; exact ⟨hc, ho⟩)] at h
        by_cases h01 : tr0 = tr1
        · rw [if_pos h01] at h
          cases hrec : compare_lines_go (i + 1) rest rest1 lns with
          | error e' =>
            rw [hrec] at h
            simp only [bind, Except.bind, Except.error.injEq] at h
            exact h ▸ ih (i + 1) rest1 lns htail e' hrec
          | ok trip =>
            rw [hrec] at h
            simp only [bind, Except.bind] at h
            exact absurd h (by simp)
        · rw [if_neg h01] at h
          by_cases hh : tr0 = "" ∨ tr0 ∈ histOf ln
          · rw [if_pos hh] at h
            cases hrec : compare_lines_go (i + 1) rest rest1 lns with
            | error e' =>
              rw [hrec] at h
              simp only [bind, Except.bind, Except.error.injEq] at h
              exact h ▸ ih (i + 1) rest1 lns htail e' hrec
            | ok trip =>
              rw [hrec] at h
              simp only [bind, Except.bind] at h
              exact absurd h (by simp)
          · rw [if_neg hh] at h
            by_cases h1e : tr1 = ""
            · rw [if_pos h1e] at h
              cases hrec : compare_lines_go (i + 1) rest rest1 lns with
              | error e' =>
                rw [hrec] at h
                simp only [bind, Except.bind, Except.error.injEq] at h
                exact h ▸ ih (i + 1) rest1 lns htail e' hrec
              | ok trip =>
                rw [hrec] at h
                simp only [bind, Except.bind] at h
                exact absurd h (by simp)
            · rw [if_neg h1e] at h
              cases htr : ln.translations with
              | nil =>
                rw [htr] at h
                simp only [Except.error.injEq] at h
                exact h.symm
              | cons tr trs =>
                rw [htr] at h
                cases hrec : compare_lines_go (i + 1) rest rest1 lns with
                | error e' =>
                  rw [hrec] at h
                  simp only [bind, Except.bind, Except.error.injEq] at h
                  exact h ▸ ih (i + 1) rest1 lns htail e' hrec
                | ok trip =>
                  rw [hrec] at h
                  simp only [bind, Except.bind] at h
                  exact absurd h (by simp)

/-- If some aligned position has a `character`/`original` mismatch, the
loop raises (some) error. -/
lemma compare_lines_go_err_of_misaligned :
    ∀ (l0 : List TSVTriple) (i : Nat) (l1 : List TSVTriple) (l2 : List VntLine),
      (∃ p ∈ zip3 l0 l1 l2, p.1.char ≠ p.2.1.char ∨ p.1.orig ≠ p.2.1.orig) →
      ∃ e, compare_lines_go i l0 l1 l2 = .error e := by
  intro l0
  induction l0 with
  | nil =>
    intro i l1 l2 h
    obtain ⟨p, hp, _⟩ := h
    simp [zip3] at hp
  | cons t0 rest ih =>
    intro i l1 l2 h
    cases l1 with
    | nil =>
      obtain ⟨p, hp, _⟩ := h
      simp [zip3] at hp
    | cons t1 rest1 =>
      cases l2 with
      | nil =>
        obtain ⟨p, hp, _⟩ := h
        simp [zip3] at hp
      | cons ln lns =>
        obtain ⟨c0, o0, tr0⟩ := t0
        obtain ⟨c1, o1, tr1⟩ := t1
        by_cases hal : c0 ≠ c1 ∨ o0 ≠ o1
        · exact ⟨.alignMismatch (i + 1) c0 o0 c1 o1, by
            simp only [compare_lines_go]
            rw [if_pos hal]⟩
        · have htail : ∃ p ∈ zip3 rest rest1 lns,
              p.1.char ≠ p.2.1.char ∨ p.1.orig ≠ p.2.1.orig := by
            obtain ⟨p, hp, hbad⟩ := h
            simp only [zip3, List.zip_cons_cons, List.mem_cons] at hp
            rcases hp with rfl | hp
            · push_neg at hal
              simp only at hbad
              rcases hbad with hbad | hbad
              · exact absurd hal.1 hbad
              · exact absurd hal.2 hbad
            · exact ⟨p, hp, hbad⟩
          obtain ⟨e, he⟩ := ih (i + 1) rest1 lns htail
          simp only [compare_lines_go]
          rw [if_neg hal]
          by_cases h01 : tr0 = tr1
          · rw [if_pos h01, he]
            exact ⟨e, rfl⟩
          · rw [if_neg h01]
            by_cases hh : tr0 = "" ∨ tr0 ∈ histOf ln
            · rw [if_pos hh, he]
              exact ⟨e, rfl⟩
            · rw [if_neg hh]
              by_cases h1e : tr1 = ""
              · rw [if_pos h1e, he]
                exact ⟨e, rfl⟩
              · rw [if_neg h1e]
                cases htr : ln.translations with
                | nil => exact ⟨.indexOutOfRange, rfl⟩
                | cons tr trs =>
                  rw [he]
                  exact ⟨e, rfl⟩

/-- The triple the adapter yields for one remote line. -/
def lineTriple (ln : VntLine) : TSVTriple :=
  ⟨ln.character_name, ln.original, transOf ln⟩

lemma generate_go_ok :
    ∀ (vls : List VntLine) (i : Nat) (lnum : Option Nat) (tr : List TSVTriple),
      generate_go i lnum vls = .ok tr →
      tr = vls.map lineTriple ∧ ∀ t ∈ tr, t.trans ≠ "#" := by
  intro vls
  induction vls with
  | nil =>
    intro i lnum tr h
    simp only [generate_go, Except.ok.injEq] at h
    subst h
    simp
  | cons ln rest ih =>
    intro i lnum tr h
    simp only [generate_go] at h
    by_cases h1 : ln.translations ≠ [] ∧ transOf ln = "#"
    · rw [if_pos h1] at h
      exact absurd h (by simp)
    · rw [if_neg h1] at h
      by_cases h2 : (hasNL (stripNL ln.original) || hasNL (stripNL (transOf ln))) = true
      · rw [if_pos h2] at h
        cases hLN : (if ln.translations ≠ [] then some (ln.line_number + 1) else lnum) with
        | none => rw [hLN] at h; exact absurd h (by simp)
        | some v => rw [hLN] at h; exact absurd h (by simp)
      · rw [if_neg h2] at h
        by_cases h3 : (stripNL ln.original ≠ ln.original ∨ stripNL (transOf ln) ≠ transOf ln) ∧
            (if ln.translations ≠ [] then some (ln.line_number + 1) else lnum) = none
        · rw [if_pos h3] at h
          exact absurd h (by simp)
        · rw [if_neg h3] at h
          cases hrec : generate_go (i + 1)
              (if ln.translations ≠ [] then some (ln.line_number + 1) else lnum) rest with
          | error e =>
            rw [hrec] at h
            simp only [bind, Except.bind] at h
            exact absurd h (by simp)
          | ok ts =>
            rw [hrec] at h
            simp only [bind, Except.bind, Except.ok.injEq] at h
            subst h
            obtain ⟨hts, hsharp⟩ := ih (i + 1) _ ts hrec
            have hhead : transOf ln ≠ "#" := by
              intro hc
              cases htr : ln.translations with
              | nil =>
                simp only [transOf, htr] at hc
                exact absurd hc (by decide)
              | cons a as => exact h1 ⟨by rw [htr]; simp, hc⟩
            refine ⟨by rw [hts]; rfl, ?_⟩
            intro t ht
            rw [List.mem_cons] at ht
            rcases ht with rfl | ht
            · exact hhead
            · exact hsharp t ht

lemma generate_go_err_of_sharp :
    ∀ (vls : List VntLine) (i : Nat) (lnum : Option Nat) (k : Nat) (ln : VntLine),
      vls[k]? = some ln → transOf ln = "#" →
      ∃ e, generate_go i lnum vls = .error e := by
  intro vls
  induction vls with
  | nil => intro i lnum k ln h _; simp at h
  | cons hd rest ih =>
    intro i lnum k ln h hbad
    simp only [generate_go]
    by_cases h1 : hd.translations ≠ [] ∧ transOf hd = "#"
    · rw [if_pos h1]
      exact ⟨_, rfl⟩
    · rw [if_neg h1]
      by_cases h2 : (hasNL (stripNL hd.original) || hasNL (stripNL (transOf hd))) = true
      · rw [if_pos h2]
        cases hLN : (if hd.translations ≠ [] then some (hd.line_number + 1) else lnum) with
        | none => exact ⟨_, rfl⟩
        | some v => exact ⟨_, rfl⟩
      · rw [if_neg h2]
        by_cases h3 : (stripNL hd.original ≠ hd.original ∨ stripNL (transOf hd) ≠ transOf hd) ∧
            (if hd.translations ≠ [] then some (hd.line_number + 1) else lnum) = none
        · rw [if_pos h3]
          exact ⟨_, rfl⟩
        · rw [if_neg h3]
          cases k with
          | zero =>
            simp only [List.getElem?_cons_zero, Option.some.injEq] at h
            subst h
            have hne : hd.translations ≠ [] := by
              intro hc
              simp only [transOf, hc] at hbad
              exact absurd hbad (by decide)
            exact absurd ⟨hne, hbad⟩ h1
          | succ k =>
            simp only [List.getElem?_cons_succ] at h
            obtain ⟨e, he⟩ := ih (i + 1)
              (if hd.translations ≠ [] then some (hd.line_number + 1) else lnum) k ln h hbad
            exact ⟨e, by rw [he]; rfl⟩

lemma splitOnChar_ne_nil (c : Char) : ∀ cs, splitOnChar c cs ≠ [] := by
  intro cs
  induction cs with
  | nil => simp [splitOnChar]
  | cons x xs ih =>
    simp only [splitOnChar]
    by_cases hx : x = c
    · rw [if_pos hx]; simp
    · rw [if_neg hx]
      cases hrec : splitOnChar c xs with
      | nil => simp
      | cons r rs => simp

lemma splitOnChar_of_not_mem (c : Char) : ∀ cs, c ∉ cs → splitOnChar c cs = [cs] := by
  intro cs
  induction cs with
  | nil => intro _; rfl
  | cons x xs ih =>
    intro h
    rw [List.mem_cons] at h
    push_neg at h
    obtain ⟨hx, hxs⟩ := h
    simp only [splitOnChar]
    rw [if_neg (fun hc => hx hc.symm), ih hxs]

lemma splitOnChar_append (c : Char) : ∀ xs ys, c ∉ xs →
    splitOnChar c (xs ++ c :: ys) = xs :: splitOnChar c ys := by
  intro xs
  induction xs with
  | nil =>
    intro ys _
    simp [splitOnChar]
  | cons x xs ih =>
    intro ys h
    rw [List.mem_cons] at h
    push_neg at h
    obtain ⟨hx, hxs⟩ := h
    have hrec : splitOnChar c (List.append xs (c :: ys)) = xs :: splitOnChar c ys :=
      ih ys hxs
    simp only [List.cons_append, splitOnChar]
    rw [if_neg (fun hc => hx hc.symm), hrec]

lemma dropFinalEmpty_cons {x : List Char} {xs : List (List Char)} (h : xs ≠ []) :
    dropFinalEmpty (x :: xs) = x :: dropFinalEmpty xs := by
  cases xs with
  | nil => exact absurd rfl h
  | cons y ys => rfl

lemma dropWhile_newline_eq_self {l : List Char} (hl : '\n' ∉ l) :
    l.dropWhile (fun c => c = '\n') = l := by
  cases l with
  | nil => rfl
  | cons a as =>
    have ha : ¬(a = '\n') := fun hc => hl (hc ▸ List.mem_cons_self a as)
    simp [List.dropWhile_cons, ha]

lemma stripNLData_of_no_newline {cs : List Char} (h : '\n' ∉ cs) : stripNLData cs = cs := by
  rw [stripNLData, dropWhile_newline_eq_self h,
    dropWhile_newline_eq_self (fun hc => h (List.mem_reverse.mp hc)), List.reverse_reverse]

lemma stripNL_of_no_newline {s : String} (h : '\n' ∉ s.data) : stripNL s = s := by
  rw [stripNL, stripNLData_of_no_newline h]

/-- A field value that survives the TSV codec unchanged: no separator,
no line terminator. -/
def cleanStr (s : String) : Prop :=
  '\n' ∉ s.data ∧ '\t' ∉ s.data

instance : DecidablePred cleanStr := fun s => by
  unfold cleanStr
  infer_instance

lemma parseLine_dumpLine {t : TSVTriple} (hc : cleanStr t.char) (ho : cleanStr t.orig)
    (ht : cleanStr t.trans) (hs : t.trans ≠ "#") :
    parseLine (dumpLine t).data = .ok t := by
  obtain ⟨xc, xo, xt⟩ := t
  simp only at hc ho ht hs
  have hsent : cleanStr (if xt = "" then "#" else xt) := by
    by_cases h0 : xt = ""
    · rw [if_pos h0]; exact ⟨by decide, by decide⟩
    · rw [if_neg h0]; exact ht
  have htd : ("\t" : String).data = ['\t'] := rfl
  have hdata : (dumpLine ⟨xc, xo, xt⟩).data =
      xc.data ++ '\t' :: (xo.data ++ '\t' :: (if xt = "" then "#" else xt).data) := by
    simp only [dumpLine, String.data_append, stripNL_of_no_newline ho.1,
      stripNL_of_no_newline hsent.1, htd, List.append_assoc, List.singleton_append]
    rfl
  rw [parseLine, hdata,
    splitOnChar_append '\t' xc.data _ hc.2,
    splitOnChar_append '\t' xo.data _ ho.2,
    splitOnChar_of_not_mem '\t' _ hsent.2]
  by_cases h0 : xt = ""
  · subst h0
    rfl
  · rw [if_neg h0]
    show (Except.ok ⟨String.mk xc.data, String.mk xo.data,
      if String.mk xt.data = "#" then "" else String.mk xt.data⟩ :
        Except SyncError TSVTriple) = .ok ⟨xc, xo, xt⟩
    rw [if_neg (fun hq => hs hq)]

/-- A record all of whose fields survive the codec unchanged. -/
def cleanTriple (t : TSVTriple) : Prop :=
  cleanStr t.char ∧ cleanStr t.orig ∧ cleanStr t.trans

instance : DecidablePred cleanTriple := fun t => by
  unfold cleanTriple
  infer_instance

lemma dumpLine_no_newline {t : TSVTriple} (hc : cleanStr t.char) (ho : cleanStr t.orig)
    (ht : cleanStr t.trans) : '\n' ∉ (dumpLine t).data := by
  obtain ⟨xc, xo, xt⟩ := t
  simp only at hc ho ht
  have hsent : '\n' ∉ (if xt = "" then "#" else xt).data := by
    by_cases h0 : xt = ""
    · rw [if_pos h0]; decide
    · rw [if_neg h0]; exact ht.1
  intro hmem
  simp only [dumpLine, String.data_append] at hmem
  rw [stripNL_of_no_newline ho.1, stripNL_of_no_newline hsent] at hmem
  simp only [List.mem_append] at hmem
  rcases hmem with ((((h | h) | h) | h) | h)
  · exact hc.1 h
  · exact absurd h (by decide)
  · exact ho.1 h
  · exact absurd h (by decide)
  · exact hsent h

/-- Decoding an encoded store returns it unchanged, provided every field
is codec-clean and no translation is the literal sentinel. -/
lemma load_dump_roundtrip :
    ∀ l : List TSVTriple, (∀ t ∈ l, cleanTriple t ∧ t.trans ≠ "#") →
      load_tsv_file (dump_tsv_file l) = .ok l := by
  intro l
  induction l with
  | nil => intro _; rfl
  | cons t ts ih =>
    intro hv
    obtain ⟨⟨hc, ho, ht⟩, hs⟩ := hv t (List.mem_cons_self t ts)
    have hrest : load_tsv_file (dump_tsv_file ts) = .ok ts :=
      ih fun x hx => hv x (List.mem_cons_of_mem t hx)
    have hnl := dumpLine_no_newline hc ho ht
    have hnd : ("\n" : String).data = ['\n'] := rfl
    have hdata : (dump_tsv_file (t :: ts)).data =
        (dumpLine t).data ++ '\n' :: (dump_tsv_file ts).data := by
      simp only [dump_tsv_file, String.data_append, hnd, List.append_assoc,
        List.singleton_append]
    unfold load_tsv_file at hrest ⊢
    rw [hdata, splitLinesData,
      splitOnChar_append '\n' _ _ hnl,
      dropFinalEmpty_cons (splitOnChar_ne_nil '\n' _)]
    show loadLines ((dumpLine t).data :: splitLinesData (dump_tsv_file ts).data) =
      .ok (t :: ts)
    simp only [loadLines, parseLine_dumpLine ⟨hc.1, hc.2⟩ ho ht hs, hrest, bind, Except.bind]

lemma chunks_join :
    ∀ (l : List (Nat × String)) (size : Nat), size ≠ 0 → (chunks l size).flatten = l := by
  intro l size
  induction l, size using chunks.induct with
  | case1 size => intro _; rw [chunks]; rfl
  | case2 x xs => intro h; exact absurd rfl h
  | case3 x xs size hs ih =>
    intro _
    rw [chunks, if_neg hs, List.flatten_cons, ih hs, List.take_append_drop]

lemma chunks_mem_sizes :
    ∀ (l : List (Nat × String)) (size : Nat), size ≠ 0 →
      ∀ c ∈ chunks l size, c ≠ [] ∧ c.length ≤ size := by
  intro l size
  induction l, size using chunks.induct with
  | case1 size => intro _ c hc; simp [chunks] at hc
  | case2 x xs => intro h; exact absurd rfl h
  | case3 x xs size hs ih =>
    intro _ c hc
    rw [chunks, if_neg hs, List.mem_cons] at hc
    rcases hc with rfl | hc
    · constructor
      · have : ((x :: xs).take size).length = min size (x :: xs).length := by
          rw [List.length_take]
        intro hnil
        rw [hnil] at this
        simp only [List.length_nil, List.length_cons] at this
        omega
      · rw [List.length_take]
        omega
    · exact ih hs c hc

lemma chunks_ne_nil {l : List (Nat × String)} {size : Nat} (hl : l ≠ []) (hs : size ≠ 0) :
    chunks l size ≠ [] := by
  cases l with
  | nil => exact absurd rfl hl
  | cons x xs =>
    rw [chunks, if_neg hs]
    simp

lemma chunks_full :
    ∀ (l : List (Nat × String)) (size : Nat), size ≠ 0 →
      ∀ j, j + 1 < (chunks l size).length →
        ∃ c, (chunks l size)[j]? = some c ∧ c.length = size := by
  intro l size
  induction l, size using chunks.induct with
  | case1 size => intro _ j hj; simp [chunks] at hj
  | case2 x xs => intro h; exact absurd rfl h
  | case3 x xs size hs ih =>
    intro _ j hj
    rw [chunks, if_neg hs] at hj ⊢
    cases j with
    | zero =>
      refine ⟨(x :: xs).take size, by simp, ?_⟩
      simp only [List.length_cons, Nat.add_lt_add_iff_right] at hj
      have hrec : chunks ((x :: xs).drop size) size ≠ [] := by
        intro hnil
        rw [hnil] at hj
        simp at hj
      have hdrop : (x :: xs).drop size ≠ [] := by
        intro hnil
        rw [hnil] at hrec
        exact hrec (by rw [chunks])
      have hlen : size < (x :: xs).length := by
        by_contra hge
        push_neg at hge
        exact hdrop (List.drop_eq_nil_of_le hge)
      rw [List.length_take]
      omega
    | succ j =>
      simp only [List.length_cons, Nat.add_lt_add_iff_right] at hj
      obtain ⟨c, hc, hlen⟩ := ih hs j hj
      exact ⟨c, by simpa using hc, hlen⟩

lemma chunks_eq_of_ne_nil {l : List (Nat × String)} {size : Nat} (hl : l ≠ []) (hs : size ≠ 0) :
    chunks l size = l.take size :: chunks (l.drop size) size := by
  cases l with
  | nil => exact absurd rfl hl
  | cons x xs => rw [chunks, if_neg hs]

/-- A concrete batch of 53 updates, for the chunking instance of the
spec's testable property. -/
def u53 : List (Nat × String) := (List.range 53).map (fun n => (n, "t"))

lemma submit_u53_eq : submit_updates u53 =
    [u53.take 25, (u53.drop 25).take 25, ((u53.drop 25).drop 25).take 25] := by
  have e1 : chunks u53 25 = u53.take 25 :: chunks (u53.drop 25) 25 :=
    chunks_eq_of_ne_nil (by decide) (by decide)
  have e2 : chunks (u53.drop 25) 25 =
      (u53.drop 25).take 25 :: chunks ((u53.drop 25).drop 25) 25 :=
    chunks_eq_of_ne_nil (by decide) (by decide)
  have e3 : chunks ((u53.drop 25).drop 25) 25 =
      ((u53.drop 25).drop 25).take 25 :: chunks (((u53.drop 25).drop 25).drop 25) 25 :=
    chunks_eq_of_ne_nil (by decide) (by decide)
  have hnil : ((u53.drop 25).drop 25).drop 25 = ([] : List (Nat × String)) := by decide
  have e4 : chunks (((u53.drop 25).drop 25).drop 25) 25 = [] := by
    rw [hnil, chunks]
  show chunks u53 UPLOAD_CHUNK_SIZE = _
  rw [show UPLOAD_CHUNK_SIZE = 25 from rfl, e1, e2, e3, e4]

/-- Claim C8: `submit_updates` partitions its input into consecutive
chunks of the fixed size 25 (every chunk is non-empty and at most 25
long, every chunk but the last exactly 25 long, and their concatenation
is the input in order); in particular 53 updates give exactly 3 chunks
of sizes 25, 25, 3 whose concatenation is the input. -/
theorem claim_C8_chunking :
    (∀ l : List (Nat × String),
      (submit_updates l).flatten = l ∧
      (∀ c ∈ submit_updates l, c ≠ [] ∧ c.length ≤ UPLOAD_CHUNK_SIZE) ∧
      (∀ j, j + 1 < (submit_updates l).length →
        ∃ c, (submit_updates l)[j]? = some c ∧ c.length = UPLOAD_CHUNK_SIZE)) ∧
    ((submit_updates u53).map List.length = [25, 25, 3] ∧
      (submit_updates u53).flatten = u53) := by
  constructor
  · intro l
    exact ⟨chunks_join l UPLOAD_CHUNK_SIZE (by decide),
      chunks_mem_sizes l UPLOAD_CHUNK_SIZE (by decide),
      chunks_full l UPLOAD_CHUNK_SIZE (by decide)⟩
  · constructor
    · rw [submit_u53_eq]
      decide
    · rw [submit_u53_eq]
      decide

/-- Witness for C8: the universally quantified part applied at the
concrete 53-update batch, its hypotheses discharged there. -/
theorem claim_C8_chunking_witness :
    (∃ c, (submit_updates u53)[0]? = some c ∧ c.length = UPLOAD_CHUNK_SIZE) ∧
    (u53.take 25 ≠ [] ∧ (u53.take 25).length ≤ UPLOAD_CHUNK_SIZE) :=
  ⟨(claim_C8_chunking.1 u53).2.2 0 (by rw [submit_u53_eq]; simp),
   (claim_C8_chunking.1 u53).2.1 (u53.take 25) (by rw [submit_u53_eq]; simp)⟩

lemma compare_lines_ok {tsv vt : List TSVTriple} {vls : List VntLine}
    {m : List TSVTriple} {u : List (Nat × String)} {o : List OverwriteInfo}
    (h : compare_lines tsv vt vls = .ok (m, u, o)) :
    tsv.length = vls.length ∧ m = (zip3 tsv vt vls).map mergedOf ∧
      u = uploadsAll (zip3 tsv vt vls) ∧ o = conflictsFrom 0 (zip3 tsv vt vls) := by
  rw [compare_lines] at h
  by_cases hl : tsv.length ≠ vls.length
  · rw [if_pos hl] at h
    exact absurd h (by simp)
  · rw [if_neg hl] at h
    push_neg at hl
    exact ⟨hl, compare_lines_go_ok tsv 0 vt vls m u o h⟩

lemma mergedOf_char (p : TSVTriple × TSVTriple × VntLine) :
    (mergedOf p).char = p.1.char := by
  rw [mergedOf]
  split_ifs <;> rfl

lemma mergedOf_orig (p : TSVTriple × TSVTriple × VntLine) :
    (mergedOf p).orig = p.1.orig := by
  rw [mergedOf]
  split_ifs <;> rfl

lemma mergedOf_trans (p : TSVTriple × TSVTriple × VntLine) :
    (mergedOf p).trans = p.1.trans ∨ (mergedOf p).trans = p.2.1.trans := by
  rw [mergedOf]
  split_ifs
  · exact Or.inl rfl
  · exact Or.inr rfl
  · exact Or.inl rfl

lemma uploadsOf_mem {x : Nat × String} {p : TSVTriple × TSVTriple × VntLine}
    (h : x ∈ uploadsOf p) : x = (p.2.2.id, p.1.trans) := by
  rw [uploadsOf] at h
  split_ifs at h
  · simp at h
  · simp at h
  · rw [List.mem_singleton] at h
    exact h

/-- On a successful run every position falls into one of the loop's
non-raising branches: in particular a novel local value facing a
non-empty remote value implies a non-empty remote history. -/
lemma compare_lines_go_ok_branches :
    ∀ (l0 : List TSVTriple) (i : Nat) (l1 : List TSVTriple) (l2 : List VntLine)
      (r : List TSVTriple × List (Nat × String) × List OverwriteInfo),
      compare_lines_go i l0 l1 l2 = .ok r →
      ∀ p ∈ zip3 l0 l1 l2,
        p.1.trans = p.2.1.trans ∨ p.1.trans = "" ∨ p.1.trans ∈ histOf p.2.2 ∨
          p.2.1.trans = "" ∨ p.2.2.translations ≠ [] := by
  intro l0
  induction l0 with
  | nil => intro i l1 l2 r _ p hp; simp [zip3] at hp
  | cons t0 rest ih =>
    intro i l1 l2 r h p hp
    cases l1 with
    | nil => simp [zip3] at hp
    | cons t1 rest1 =>
      cases l2 with
      | nil => simp [zip3] at hp
      | cons ln lns =>
        obtain ⟨c0, o0, tr0⟩ := t0
        obtain ⟨c1, o1, tr1⟩ := t1
        simp only [zip3, List.zip_cons_cons, List.mem_cons] at hp
        simp only [compare_lines_go] at h
        by_cases hal : c0 ≠ c1 ∨ o0 ≠ o1
        · rw [if_pos hal] at h
          exact absurd h (by simp)
        · rw [if_neg hal] at h
          have tail : ∀ q ∈ zip3 rest rest1 lns,
              q.1.trans = q.2.1.trans ∨ q.1.trans = "" ∨ q.1.trans ∈ histOf q.2.2 ∨
                q.2.1.trans = "" ∨ q.2.2.translations ≠ [] := by
            by_cases h01 : tr0 = tr1
            · rw [if_pos h01] at h
              cases hrec : compare_lines_go (i + 1) rest rest1 lns with
              | error e =>
                rw [hrec] at h
                simp only [bind, Except.bind] at h
                exact absurd h (by simp)
              | ok trip => exact ih (i + 1) rest1 lns trip hrec
            · rw [if_neg h01] at h
              by_cases hh : tr0 = "" ∨ tr0 ∈ histOf ln
              · rw [if_pos hh] at h
                cases hrec : compare_lines_go (i + 1) rest rest1 lns with
                | error e =>
                  rw [hrec] at h
                  simp only [bind, Except.bind] at h
                  exact absurd h (by simp)
                | ok trip => exact ih (i + 1) rest1 lns trip hrec
              · rw [if_neg hh] at h
                by_cases h1e : tr1 = ""
                · rw [if_pos h1e] at h
                  cases hrec : compare_lines_go (i + 1) rest rest1 lns with
                  | error e =>
                    rw [hrec] at h
                    simp only [bind, Except.bind] at h
                    exact absurd h (by simp)
                  | ok trip => exact ih (i + 1) rest1 lns trip hrec
                · rw [if_neg h1e] at h
                  cases htr : ln.translations with
                  | nil =>
                    rw [htr] at h
                    exact absurd h (by simp)
                  | cons tr trs =>
                    rw [htr] at h
                    cases hrec : compare_lines_go (i + 1) rest rest1 lns with
                    | error e =>
                      rw [hrec] at h
                      simp only [bind, Except.bind] at h
                      exact absurd h (by simp)
                    | ok trip => exact ih (i + 1) rest1 lns trip hrec
          rcases hp with rfl | hp
          · simp only
            by_cases h01 : tr0 = tr1
            · exact Or.inl h01
            · by_cases hh : tr0 = "" ∨ tr0 ∈ histOf ln
              · rcases hh with hh | hh
                · exact Or.inr (Or.inl hh)
                · exact Or.inr (Or.inr (Or.inl hh))
              · by_cases h1e : tr1 = ""
                · exact Or.inr (Or.inr (Or.inr (Or.inl h1e)))
                · refine Or.inr (Or.inr (Or.inr (Or.inr ?_)))
                  rw [if_neg h01, if_neg hh, if_neg h1e] at h
                  intro htr
                  rw [htr] at h
                  exact absurd h (by simp)
          · exact tail p hp

lemma compare_lines_go_refl :
    ∀ (l : List TSVTriple) (i : Nat) (vls : List VntLine), l.length = vls.length →
      compare_lines_go i l l vls = .ok (l, [], []) := by
  intro l
  induction l with
  | nil =>
    intro i vls hlen
    cases vls with
    | nil => rfl
    | cons ln lns => simp at hlen
  | cons t rest ih =>
    intro i vls hlen
    cases vls with
    | nil => simp at hlen
    | cons ln lns =>
      obtain ⟨c0, o0, tr0⟩ := t
      simp only [List.length_cons, Nat.add_right_cancel_iff] at hlen
      simp only [compare_lines_go]
      rw [if_neg (by push_neg; exact ⟨rfl, rfl⟩), if_pos trivial, ih (i + 1) lns hlen]
      rfl

/-- The two alignment-violation errors of `compare_lines` (sequence
length mismatch, `character`/`original` mismatch at a position). -/
def isAlignmentError : SyncError → Bool
  | .lengthMismatch _ _ => true
  | .alignMismatch _ _ _ _ _ => true
  | _ => false

/-- Claim C1: at every aligned position whose local translation is
non-empty, differs from the remote current translation, and appears in
that line's remote history, `compare_lines` merges to the remote current
translation and schedules no upload for that position (the run's upload
list decomposes position by position, and this position contributes
none). -/
theorem claim_C1_history_stale
    (tsv vt : List TSVTriple) (vls : List VntLine)
    (m : List TSVTriple) (u : List (Nat × String)) (o : List OverwriteInfo)
    (i : Nat) (t0 t1 : TSVTriple) (ln : VntLine)
    (hok : compare_lines tsv vt vls = .ok (m, u, o))
    (h0 : tsv[i]? = some t0) (h1 : vt[i]? = some t1) (h2 : vls[i]? = some ln)
    (hne : t0.trans ≠ "") (hdiff : t0.trans ≠ t1.trans) (hhist : t0.trans ∈ histOf ln) :
    m[i]? = some ⟨t0.char, t0.orig, t1.trans⟩ ∧
    u = uploadsAll (zip3 tsv vt vls) ∧ uploadsOf (t0, t1, ln) = [] := by
  obtain ⟨hlen, hm, hu, ho⟩ := compare_lines_ok hok
  have hp := zip3_getElem_some h0 h1 h2
  have hmerged : mergedOf (t0, t1, ln) = ⟨t0.char, t0.orig, t1.trans⟩ := by
    dsimp only [mergedOf]
    rw [if_neg hdiff, if_pos (Or.inr hhist)]
  refine ⟨?_, hu, ?_⟩
  · rw [hm, List.getElem?_map, hp, Option.map_some', hmerged]
  · dsimp only [uploadsOf]
    rw [if_neg hdiff, if_pos (Or.inr hhist)]

/-- Witness for C1 at history `["B", "A"]` (current `"B"`), local
`"A"`: the merge adopts `"B"` and the position uploads nothing. -/
theorem claim_C1_history_stale_witness :
    ([⟨"", "o", "B"⟩] : List TSVTriple)[0]? = some ⟨"", "o", "B"⟩ ∧
    ([] : List (Nat × String)) =
      uploadsAll (zip3 [⟨"", "o", "A"⟩] [⟨"", "o", "B"⟩]
        [⟨5, 0, "", "o", [⟨"B", "u"⟩, ⟨"A", "u"⟩]⟩]) ∧
    uploadsOf (⟨"", "o", "A"⟩, ⟨"", "o", "B"⟩,
      ⟨5, 0, "", "o", [⟨"B", "u"⟩, ⟨"A", "u"⟩]⟩) = [] :=
  claim_C1_history_stale [⟨"", "o", "A"⟩] [⟨"", "o", "B"⟩]
    [⟨5, 0, "", "o", [⟨"B", "u"⟩, ⟨"A", "u"⟩]⟩]
    [⟨"", "o", "B"⟩] [] [] 0 ⟨"", "o", "A"⟩ ⟨"", "o", "B"⟩
    ⟨5, 0, "", "o", [⟨"B", "u"⟩, ⟨"A", "u"⟩]⟩
    (by rfl) (by rfl) (by rfl) (by rfl) (by decide) (by decide) (by decide)

/-- Claim C5: at every aligned position whose local translation is
empty, `compare_lines` merges to the remote current translation and the
position contributes no upload. -/
theorem claim_C5_adoption
    (tsv vt : List TSVTriple) (vls : List VntLine)
    (m : List TSVTriple) (u : List (Nat × String)) (o : List OverwriteInfo)
    (i : Nat) (t0 t1 : TSVTriple) (ln : VntLine)
    (hok : compare_lines tsv vt vls = .ok (m, u, o))
    (h0 : tsv[i]? = some t0) (h1 : vt[i]? = some t1) (h2 : vls[i]? = some ln)
    (hempty : t0.trans = "") :
    m[i]? = some ⟨t0.char, t0.orig, t1.trans⟩ ∧
    u = uploadsAll (zip3 tsv vt vls) ∧ uploadsOf (t0, t1, ln) = [] := by
  obtain ⟨hlen, hm, hu, ho⟩ := compare_lines_ok hok
  have hp := zip3_getElem_some h0 h1 h2
  have hmerged : mergedOf (t0, t1, ln) = ⟨t0.char, t0.orig, t1.trans⟩ := by
    dsimp only [mergedOf]
    by_cases h01 : t0.trans = t1.trans
    · rw [if_pos h01]
      rw [← h01]
    · rw [if_neg h01, if_pos (Or.inl hempty)]
  have hupl : uploadsOf (t0, t1, ln) = [] := by
    dsimp only [uploadsOf]
    by_cases h01 : t0.trans = t1.trans
    · rw [if_pos h01]
    · rw [if_neg h01, if_pos (Or.inl hempty)]
  refine ⟨?_, hu, hupl⟩
  rw [hm, List.getElem?_map, hp, Option.map_some', hmerged]

/-- Witness for C5: an empty local translation adopts the remote
current translation `"B"` with no upload. -/
theorem claim_C5_adoption_witness :
    ([⟨"", "o", "B"⟩] : List TSVTriple)[0]? = some ⟨"", "o", "B"⟩ ∧
    ([] : List (Nat × String)) =
      uploadsAll (zip3 [⟨"", "o", ""⟩] [⟨"", "o", "B"⟩]
        [⟨5, 2, "", "o", [⟨"B", "u"⟩]⟩]) ∧
    uploadsOf (⟨"", "o", ""⟩, ⟨"", "o", "B"⟩, ⟨5, 2, "", "o", [⟨"B", "u"⟩]⟩) = [] :=
  claim_C5_adoption [⟨"", "o", ""⟩] [⟨"", "o", "B"⟩] [⟨5, 2, "", "o", [⟨"B", "u"⟩]⟩]
    [⟨"", "o", "B"⟩] [] [] 0 ⟨"", "o", ""⟩ ⟨"", "o", "B"⟩ ⟨5, 2, "", "o", [⟨"B", "u"⟩]⟩
    (by rfl) (by rfl) (by rfl) (by rfl) (by rfl)

/-- Claim C2: at every aligned position whose local translation is
non-empty, differs from the remote current translation, and is absent
from the remote history, `compare_lines` keeps the local value in the
merge and the position contributes exactly the upload
`(remote id, local translation)`; it contributes exactly one
overwrite-conflict record when the remote current translation is
non-empty, and none when it is empty. -/
theorem claim_C2_novel_upload
    (tsv vt : List TSVTriple) (vls : List VntLine)
    (m : List TSVTriple) (u : List (Nat × String)) (o : List OverwriteInfo)
    (i : Nat) (t0 t1 : TSVTriple) (ln : VntLine)
    (hok : compare_lines tsv vt vls = .ok (m, u, o))
    (h0 : tsv[i]? = some t0) (h1 : vt[i]? = some t1) (h2 : vls[i]? = some ln)
    (hne : t0.trans ≠ "") (hdiff : t0.trans ≠ t1.trans) (hnot : t0.trans ∉ histOf ln) :
    m[i]? = some t0 ∧
    u = uploadsAll (zip3 tsv vt vls) ∧
    uploadsOf (t0, t1, ln) = [(ln.id, t0.trans)] ∧
    o = conflictsFrom 0 (zip3 tsv vt vls) ∧
    (t1.trans = "" → conflictsOf i (t0, t1, ln) = []) ∧
    (t1.trans ≠ "" → (conflictsOf i (t0, t1, ln)).length = 1) := by
  obtain ⟨hlen, hm, hu, ho⟩ := compare_lines_ok hok
  have hp := zip3_getElem_some h0 h1 h2
  have hor : ¬(t0.trans = "" ∨ t0.trans ∈ histOf ln) := by
    push_neg
    exact ⟨hne, hnot⟩
  have hmerged : mergedOf (t0, t1, ln) = t0 := by
    dsimp only [mergedOf]
    rw [if_neg hdiff, if_neg hor]
  refine ⟨?_, hu, ?_, ho, ?_, ?_⟩
  · rw [hm, List.getElem?_map, hp, Option.map_some', hmerged]
  · dsimp only [uploadsOf]
    rw [if_neg hdiff, if_neg hor]
  · intro h1e
    dsimp only [conflictsOf]
    rw [if_neg hdiff, if_neg hor, if_pos h1e]
  · intro h1e
    have hne2 : ln.translations ≠ [] := by
      rw [compare_lines] at hok
      by_cases hl : tsv.length ≠ vls.length
      · rw [if_pos hl] at hok
        exact absurd hok (by simp)
      · rw [if_neg hl] at hok
        have hmem : (t0, t1, ln) ∈ zip3 tsv vt vls :=
          List.getElem?_mem hp
        have := compare_lines_go_ok_branches tsv 0 vt vls (m, u, o) hok (t0, t1, ln) hmem
        simp only at this
        rcases this with hbr | hbr | hbr | hbr | hbr
        · exact absurd hbr hdiff
        · exact absurd hbr hne
        · exact absurd hbr hnot
        · exact absurd hbr h1e
        · exact hbr
    dsimp only [conflictsOf]
    rw [if_neg hdiff, if_neg hor, if_neg h1e]
    cases htr : ln.translations with
    | nil => exact absurd htr hne2
    | cons tr trs => rfl

/-- Witness for C2 at history `["B"]` (current `"B"`), local `"C"`: one
upload `(5, "C")`, merge stays `"C"`, one conflict record. -/
theorem claim_C2_novel_upload_witness :
    ([⟨"", "o", "C"⟩] : List TSVTriple)[0]? = some ⟨"", "o", "C"⟩ ∧
    ([(5, "C")] : List (Nat × String)) =
      uploadsAll (zip3 [⟨"", "o", "C"⟩] [⟨"", "o", "B"⟩] [⟨5, 0, "", "o", [⟨"B", "u"⟩]⟩]) ∧
    uploadsOf (⟨"", "o", "C"⟩, ⟨"", "o", "B"⟩, ⟨5, 0, "", "o", [⟨"B", "u"⟩]⟩) = [(5, "C")] ∧
    ([⟨1, 1, "", "o", "C", "B", "u"⟩] : List OverwriteInfo) =
      conflictsFrom 0 (zip3 [⟨"", "o", "C"⟩] [⟨"", "o", "B"⟩]
        [⟨5, 0, "", "o", [⟨"B", "u"⟩]⟩]) ∧
    (((⟨"", "o", "B"⟩ : TSVTriple).trans = "") →
      conflictsOf 0 (⟨"", "o", "C"⟩, ⟨"", "o", "B"⟩, ⟨5, 0, "", "o", [⟨"B", "u"⟩]⟩) = []) ∧
    (((⟨"", "o", "B"⟩ : TSVTriple).trans ≠ "") →
      (conflictsOf 0 (⟨"", "o", "C"⟩, ⟨"", "o", "B"⟩,
        ⟨5, 0, "", "o", [⟨"B", "u"⟩]⟩)).length = 1) :=
  claim_C2_novel_upload [⟨"", "o", "C"⟩] [⟨"", "o", "B"⟩] [⟨5, 0, "", "o", [⟨"B", "u"⟩]⟩]
    [⟨"", "o", "C"⟩] [(5, "C")] [⟨1, 1, "", "o", "C", "B", "u"⟩]
    0 ⟨"", "o", "C"⟩ ⟨"", "o", "B"⟩ ⟨5, 0, "", "o", [⟨"B", "u"⟩]⟩
    (by rfl) (by rfl) (by rfl) (by rfl) (by decide) (by decide) (by decide)

/-- Claim C10: on every aligned input (the remote triples and remote
line objects of equal length) where `compare_lines` returns normally,
the merged sequence has the local store's length; at each position the
merged record keeps the local `character` and `original`; each merged
translation is the local or the remote current translation of that same
position; and every scheduled upload is the remote id and local
translation of some position. -/
theorem claim_C10_shape_invariants
    (tsv vt : List TSVTriple) (vls : List VntLine)
    (m : List TSVTriple) (u : List (Nat × String)) (o : List OverwriteInfo)
    (hvt : vt.length = vls.length)
    (hok : compare_lines tsv vt vls = .ok (m, u, o)) :
    m.length = tsv.length ∧
    (∀ (i : Nat) (t0 mi : TSVTriple), tsv[i]? = some t0 → m[i]? = some mi →
      mi.char = t0.char ∧ mi.orig = t0.orig) ∧
    (∀ (i : Nat) (t0 t1 mi : TSVTriple), tsv[i]? = some t0 → vt[i]? = some t1 →
      m[i]? = some mi → mi.trans = t0.trans ∨ mi.trans = t1.trans) ∧
    (∀ x ∈ u, ∃ (i : Nat) (t0 t1 : TSVTriple) (ln : VntLine),
      tsv[i]? = some t0 ∧ vt[i]? = some t1 ∧
      vls[i]? = some ln ∧ x = (ln.id, t0.trans)) := by
  obtain ⟨hlen, hm, hu, ho⟩ := compare_lines_ok hok
  have hzlen : (zip3 tsv vt vls).length = tsv.length := by
    rw [zip3, List.length_zip, List.length_zip]
    omega
  have hmget : ∀ (i : Nat) (mi : TSVTriple), m[i]? = some mi →
      ∃ p, (zip3 tsv vt vls)[i]? = some p ∧ mi = mergedOf p := by
    intro i mi hmi
    rw [hm, List.getElem?_map] at hmi
    cases hz : (zip3 tsv vt vls)[i]? with
    | none => rw [hz] at hmi; simp at hmi
    | some p =>
      rw [hz] at hmi
      simp only [Option.map_some', Option.some.injEq] at hmi
      exact ⟨p, rfl, hmi.symm⟩
  refine ⟨by rw [hm, List.length_map, hzlen], ?_, ?_, ?_⟩
  · intro i t0 mi h0 hmi
    obtain ⟨p, hz, rfl⟩ := hmget i mi hmi
    obtain ⟨hz0, hz1, hz2⟩ := zip3_getElem_inv hz
    have hp1 : p.1 = t0 := by
      rw [h0] at hz0
      exact Option.some.inj hz0.symm
    rw [mergedOf_char, mergedOf_orig, hp1]
    exact ⟨rfl, rfl⟩
  · intro i t0 t1 mi h0 h1 hmi
    obtain ⟨p, hz, rfl⟩ := hmget i mi hmi
    obtain ⟨hz0, hz1, hz2⟩ := zip3_getElem_inv hz
    have hp1 : p.1 = t0 := by
      rw [h0] at hz0
      exact Option.some.inj hz0.symm
    have hp2 : p.2.1 = t1 := by
      rw [h1] at hz1
      exact Option.some.inj hz1.symm
    rw [← hp1, ← hp2]
    exact mergedOf_trans p
  · intro x hx
    rw [hu] at hx
    obtain ⟨p, hp, hxp⟩ := mem_uploadsAll hx
    obtain ⟨i, hz⟩ := List.getElem?_of_mem hp
    obtain ⟨hz0, hz1, hz2⟩ := zip3_getElem_inv hz
    exact ⟨i, p.1, p.2.1, p.2.2, hz0, hz1, hz2, uploadsOf_mem hxp⟩

/-- Witness for C10 at a small mixed input (one adopted line, one novel
line producing an upload). -/
theorem claim_C10_shape_invariants_witness :
    ([⟨"x", "p", "B"⟩, ⟨"y", "q", "C"⟩] : List TSVTriple).length =
      ([⟨"x", "p", ""⟩, ⟨"y", "q", "C"⟩] : List TSVTriple).length ∧
    (∀ (i : Nat) (t0 mi : TSVTriple),
      ([⟨"x", "p", ""⟩, ⟨"y", "q", "C"⟩] : List TSVTriple)[i]? = some t0 →
      ([⟨"x", "p", "B"⟩, ⟨"y", "q", "C"⟩] : List TSVTriple)[i]? = some mi →
      mi.char = t0.char ∧ mi.orig = t0.orig) ∧
    (∀ (i : Nat) (t0 t1 mi : TSVTriple),
      ([⟨"x", "p", ""⟩, ⟨"y", "q", "C"⟩] : List TSVTriple)[i]? = some t0 →
      ([⟨"x", "p", "B"⟩, ⟨"y", "q", ""⟩] : List TSVTriple)[i]? = some t1 →
      ([⟨"x", "p", "B"⟩, ⟨"y", "q", "C"⟩] : List TSVTriple)[i]? = some mi →
      mi.trans = t0.trans ∨ mi.trans = t1.trans) ∧
    (∀ x ∈ ([(9, "C")] : List (Nat × String)),
      ∃ (i : Nat) (t0 t1 : TSVTriple) (ln : VntLine),
        ([⟨"x", "p", ""⟩, ⟨"y", "q", "C"⟩] : List TSVTriple)[i]? = some t0 ∧
        ([⟨"x", "p", "B"⟩, ⟨"y", "q", ""⟩] : List TSVTriple)[i]? = some t1 ∧
        ([⟨8, 0, "x", "p", [⟨"B", "u"⟩]⟩, ⟨9, 1, "y", "q", []⟩] : List VntLine)[i]? = some ln ∧
        x = (ln.id, t0.trans)) :=
  claim_C10_shape_invariants
    [⟨"x", "p", ""⟩, ⟨"y", "q", "C"⟩] [⟨"x", "p", "B"⟩, ⟨"y", "q", ""⟩]
    [⟨8, 0, "x", "p", [⟨"B", "u"⟩]⟩, ⟨9, 1, "y", "q", []⟩]
    [⟨"x", "p", "B"⟩, ⟨"y", "q", "C"⟩] [(9, "C")] []
    (by rfl) (by rfl)

/-- Claim C3: with equal lengths and byte-identical `character` and
`original` at every position, `compare_lines` raises no alignment error
(any raised error is the remote-history `IndexError`, not a length or
character/original mismatch); with unequal lengths or a mismatch at
some position, it raises an error, hence returns no merged store and no
uploads. -/
theorem claim_C3_alignment_invariant :
    (∀ (tsv vt : List TSVTriple) (vls : List VntLine),
      tsv.length = vls.length →
      vt.length = vls.length →
      (∀ (i : Nat) (t0 t1 : TSVTriple), tsv[i]? = some t0 → vt[i]? = some t1 →
        t0.char = t1.char ∧ t0.orig = t1.orig) →
      ∀ e, compare_lines tsv vt vls = .error e → isAlignmentError e = false) ∧
    (∀ (tsv vt : List TSVTriple) (vls : List VntLine),
      vt.length = vls.length →
      (tsv.length ≠ vls.length ∨
        ∃ (i : Nat) (t0 t1 : TSVTriple), tsv[i]? = some t0 ∧ vt[i]? = some t1 ∧
          (t0.char ≠ t1.char ∨ t0.orig ≠ t1.orig)) →
      ∃ e, compare_lines tsv vt vls = .error e) := by
  constructor
  · intro tsv vt vls hlen hvt hal e herr
    rw [compare_lines, if_neg (by omega)] at herr
    have haligned : ∀ p ∈ zip3 tsv vt vls, p.1.char = p.2.1.char ∧ p.1.orig = p.2.1.orig := by
      intro p hp
      obtain ⟨i, hz⟩ := List.getElem?_of_mem hp
      obtain ⟨hz0, hz1, _⟩ := zip3_getElem_inv hz
      exact hal i p.1 p.2.1 hz0 hz1
    rw [compare_lines_go_err_aligned tsv 0 vt vls haligned e herr]
    rfl
  · intro tsv vt vls hvt hbad
    by_cases hlen : tsv.length ≠ vls.length
    · exact ⟨.lengthMismatch tsv.length vls.length, by rw [compare_lines, if_pos hlen]⟩
    · push_neg at hlen
      rcases hbad with hbad | ⟨i, t0, t1, h0, h1, hbad⟩
      · exact absurd hlen hbad
      · have h2 : ∃ ln, vls[i]? = some ln := by
          obtain ⟨hi, _⟩ := List.getElem?_eq_some_iff.mp h1
          have hlt : i < vls.length := by omega
          exact ⟨vls.get ⟨i, hlt⟩, by rw [List.getElem?_eq_getElem hlt]; rfl⟩
        obtain ⟨ln, h2⟩ := h2
        have hmem : (t0, t1, ln) ∈ zip3 tsv vt vls :=
          List.getElem?_mem (zip3_getElem_some h0 h1 h2)
        obtain ⟨e, he⟩ := compare_lines_go_err_of_misaligned tsv 0 vt vls
          ⟨(t0, t1, ln), hmem, hbad⟩
        exact ⟨e, by rw [compare_lines, if_neg (by omega)]; exact he⟩

/-- Witness for C3: an aligned pair whose run fails only with the
remote-history `IndexError` (not an alignment error), and a
`character`-mismatched pair that raises. -/
theorem claim_C3_alignment_invariant_witness :
    isAlignmentError .indexOutOfRange = false ∧
    (∃ e, compare_lines [⟨"a", "o", "t"⟩] [⟨"b", "o", "t"⟩]
      [⟨5, 0, "b", "o", []⟩] = .error e) :=
  ⟨claim_C3_alignment_invariant.1 [⟨"x", "o", "C"⟩] [⟨"x", "o", "B"⟩]
      [⟨5, 0, "x", "o", []⟩] (by rfl) (by rfl)
      (by
        intro i t0 t1 h0 h1
        cases i with
        | zero =>
          simp only [List.getElem?_cons_zero, Option.some.injEq] at h0 h1
          subst h0
          subst h1
          exact ⟨rfl, rfl⟩
        | succ n => simp at h0)
      .indexOutOfRange (by rfl),
   claim_C3_alignment_invariant.2 [⟨"a", "o", "t"⟩] [⟨"b", "o", "t"⟩]
      [⟨5, 0, "b", "o", []⟩] (by rfl)
      (Or.inr ⟨0, ⟨"a", "o", "t"⟩, ⟨"b", "o", "t"⟩, by rfl, by rfl,
        Or.inl (by decide)⟩)⟩

/-- Claim C6 (code bug, evaluated at the failing input): the spec and
the warning's own text intend a line with only leading/trailing line
terminators to be passed through with a warning and no error, but when
no line at or before it carries a translation, the warning's f-string
reads the never-assigned `line_number` local and the source raises
`UnboundLocalError` instead.  The conjuncts evaluate
`generate_tsv_from_vnt`: (1) the failing input — an untranslated first
line whose original has a merely-leading newline — raises; (2) with
`line_number` bound (a translated line), the same leading-newline case
is passed through unmodified, as claimed; (3) an internal newline still
aborts even with `line_number` unbound (as `UnboundLocalError`, from
the same unbound read in the error message); (4) an internal newline
with `line_number` bound raises the intended `ValueError`. -/
theorem claim_C6_unbound_line_number :
    generate_tsv_from_vnt [⟨7, 0, "", "\no", []⟩] = .error .unboundLocal ∧
    generate_tsv_from_vnt [⟨7, 0, "", "o", [⟨"\nA", "u"⟩]⟩] =
      .ok [⟨"", "o", "\nA"⟩] ∧
    generate_tsv_from_vnt [⟨7, 0, "", "a\nb", []⟩] = .error .unboundLocal ∧
    generate_tsv_from_vnt [⟨7, 0, "", "a\nb", [⟨"T", "u"⟩]⟩] =
      .error (.internalNewline 1) :=
  ⟨rfl, rfl, rfl, rfl⟩

/-- Counterexample to claim C7 as stated: `dump_tsv_file` does not fail
on a record whose translation is the literal sentinel; it writes the
line `"c\to\t#"`, which then decodes with an empty translation. -/
theorem claim_C7_counterexample :
    dump_tsv_file [⟨"c", "o", "#"⟩] = "c\to\t#\n" ∧
    load_tsv_file "c\to\t#\n" = .ok [⟨"c", "o", ""⟩] := by
  constructor
  · rfl
  · rfl

/-- Claim C7 amended: `dump_tsv_file` itself never fails; a record with
translation `"#"` is written with the sentinel field unchanged.  The
reserved-sentinel error is raised earlier, by `generate_tsv_from_vnt`,
whenever a remote translation equals `"#"`. -/
theorem claim_C7_sentinel_rejection_amended :
    (∀ t : TSVTriple, t.trans = "#" →
      dump_tsv_file [t] = t.char ++ "\t" ++ stripNL t.orig ++ "\t" ++ "#" ++ "\n") ∧
    (∀ (vls : List VntLine) (k : Nat) (ln : VntLine),
      vls[k]? = some ln → transOf ln = "#" →
      ∃ e, generate_tsv_from_vnt vls = .error e) := by
  constructor
  · intro t ht
    show dumpLine t ++ "\n" ++ dump_tsv_file [] = _
    rw [show dump_tsv_file [] = "" from rfl, String.append_empty, dumpLine,
      ht, if_neg (by decide), show stripNL "#" = "#" from rfl]
  · exact fun vls k ln h hs => generate_go_err_of_sharp vls 1 none k ln h hs

/-- Witness for C7 (amended): the sentinel-translation record is dumped
unchanged, and the adapter rejects a remote `"#"` translation. -/
theorem claim_C7_sentinel_rejection_amended_witness :
    dump_tsv_file [⟨"c", "o", "#"⟩] =
      "c" ++ "\t" ++ stripNL "o" ++ "\t" ++ "#" ++ "\n" ∧
    ∃ e, generate_tsv_from_vnt [⟨7, 3, "", "o", [⟨"#", "auth"⟩]⟩] = .error e :=
  ⟨claim_C7_sentinel_rejection_amended.1 ⟨"c", "o", "#"⟩ (by rfl),
   claim_C7_sentinel_rejection_amended.2 [⟨7, 3, "", "o", [⟨"#", "auth"⟩]⟩] 0
      ⟨7, 3, "", "o", [⟨"#", "auth"⟩]⟩ (by rfl) (by rfl)⟩

/-- Claim C9: encoding a record with empty translation writes the
sentinel `"#"` in the translation field; decoding after encoding
returns the input records unchanged whenever every field is free of
tabs and newlines and no translation is the literal sentinel (so the
empty translation comes back as `""`, not `"#"`). -/
theorem claim_C9_sentinel_roundtrip :
    (∀ t : TSVTriple, t.trans = "" →
      dump_tsv_file [t] = t.char ++ "\t" ++ stripNL t.orig ++ "\t" ++ "#" ++ "\n") ∧
    (∀ l : List TSVTriple, (∀ t ∈ l, cleanTriple t ∧ t.trans ≠ "#") →
      load_tsv_file (dump_tsv_file l) = .ok l) := by
  constructor
  · intro t ht
    show dumpLine t ++ "\n" ++ dump_tsv_file [] = _
    rw [show dump_tsv_file [] = "" from rfl, String.append_empty, dumpLine,
      ht, if_pos rfl, show stripNL "#" = "#" from rfl]
  · exact load_dump_roundtrip

/-- Witness for C9: the empty-translation record round-trips through
the sentinel back to `""`. -/
theorem claim_C9_sentinel_roundtrip_witness :
    dump_tsv_file [⟨"c", "o", ""⟩] =
      "c" ++ "\t" ++ stripNL "o" ++ "\t" ++ "#" ++ "\n" ∧
    load_tsv_file (dump_tsv_file [⟨"c", "o", ""⟩]) = .ok [⟨"c", "o", ""⟩] :=
  ⟨claim_C9_sentinel_roundtrip.1 ⟨"c", "o", ""⟩ (by rfl),
   claim_C9_sentinel_roundtrip.2 [⟨"c", "o", ""⟩] (by decide)⟩

/-- Counterexample to claim C4 as stated: for the remote snapshot whose
only translation is `"\nA"` (a merely-leading newline, which the
adapter passes through with a warning), the dumped file strips the
newline, so the store loaded back is `"A"`; reconciling it against the
same snapshot then schedules an upload `(7, "A")` — not the empty
upload list the claim requires. -/
theorem claim_C4_counterexample :
    generate_tsv_from_vnt [⟨7, 0, "", "o", [⟨"\nA", "auth"⟩]⟩] =
      .ok [⟨"", "o", "\nA"⟩] ∧
    dump_tsv_file [⟨"", "o", "\nA"⟩] = "\to\tA\n" ∧
    load_tsv_file "\to\tA\n" = .ok [⟨"", "o", "A"⟩] ∧
    compare_lines [⟨"", "o", "A"⟩] [⟨"", "o", "\nA"⟩]
      [⟨7, 0, "", "o", [⟨"\nA", "auth"⟩]⟩] =
      .ok ([⟨"", "o", "A"⟩], [(7, "A")], [⟨1, 1, "", "o", "A", "\nA", "auth"⟩]) ∧
    ([(7, "A")] : List (Nat × String)) ≠ [] :=
  ⟨rfl, rfl, rfl, rfl, by decide⟩

/-- Claim C4 amended: for every remote snapshot whose normalized
triples have tab- and newline-free fields (in particular no
leading/trailing terminators, which the adapter only warns about), the
store produced via dump and load is the normalized snapshot itself, and
reconciling it against the same snapshot returns it unchanged with zero
uploads and zero conflict records. -/
theorem claim_C4_no_op_idempotence_amended
    (vls : List VntLine) (tr : List TSVTriple)
    (hgen : generate_tsv_from_vnt vls = .ok tr)
    (hclean : ∀ t ∈ tr, cleanTriple t) :
    load_tsv_file (dump_tsv_file tr) = .ok tr ∧
    compare_lines tr tr vls = .ok (tr, [], []) := by
  obtain ⟨htr, hsharp⟩ := generate_go_ok vls 1 none tr hgen
  have hlen : tr.length = vls.length := by
    rw [htr, List.length_map]
  refine ⟨load_dump_roundtrip tr (fun t ht => ⟨hclean t ht, hsharp t ht⟩), ?_⟩
  rw [compare_lines, if_neg (by omega)]
  exact compare_lines_go_refl tr 0 vls hlen

/-- Witness for C4 (amended) at a one-line snapshot with clean fields:
the loaded store equals the snapshot and reconciliation is a no-op. -/
theorem claim_C4_no_op_idempotence_amended_witness :
    load_tsv_file (dump_tsv_file [⟨"n", "o", "T"⟩]) = .ok [⟨"n", "o", "T"⟩] ∧
    compare_lines [⟨"n", "o", "T"⟩] [⟨"n", "o", "T"⟩]
      [⟨5, 0, "n", "o", [⟨"T", "u"⟩]⟩] = .ok ([⟨"n", "o", "T"⟩], [], []) :=
  claim_C4_no_op_idempotence_amended [⟨5, 0, "n", "o", [⟨"T", "u"⟩]⟩]
    [⟨"n", "o", "T"⟩] (by rfl) (by decide)
